import Mathlib

/-!
Verification development for the pyppmi repository (`model.py`, `wordlists.py`).

The embedding below translates the pipeline of `PPMIModel` from `model.py`:
Python dictionaries become association lists with the Python insertion/update
semantics (`dictUpd`, `dictAdd` for `defaultdict(float)` accumulation),
token weights and counts are exact rationals, and the transcendental parts
of the PPMI score (`log`) are real numbers.  The functions `mod`,
`log`, `power`, `sqrt`, `randint` are the numpy ones (the module is missing its
numpy import; they are embedded with their standard mathematical meaning),
and `pickle.dump` calls are pure persistence side effects with no influence
on the computed values, so they are not modelled.  The strategy dispatch
`self.context_map[self.hyperp . weighting]](tokens,i,self.hyperp[L])` passes
the half-window radius that the strategy methods already read from
`self.hyperp`, so the strategies are embedded as functions of the radius,
the token list and the position.
-/

/-- Python dict assignment `d[k] = v`: update the value in place when the key
is present (keeping its original position), append the binding otherwise. -/
def dictUpd {κ ν : Type} [DecidableEq κ] : List (κ × ν) → κ → ν → List (κ × ν)
  | [], k, v => [(k, v)]
  | p :: rest, k, v => if p.1 = k then (k, v) :: rest else p :: dictUpd rest k v

/-- Python dict lookup with a default (`defaultdict` read / `dict.get`). -/
def dictGetD {κ ν : Type} [DecidableEq κ] : List (κ × ν) → κ → ν → ν
  | [], _, d => d
  | p :: rest, k, d => if p.1 = k then p.2 else dictGetD rest k d

/-- Python `defaultdict(float)` accumulation `d[k] += v` (missing keys start at 0). -/
def dictAdd {κ ν : Type} [DecidableEq κ] [Zero ν] [Add ν] (d : List (κ × ν))
    (k : κ) (v : ν) : List (κ × ν) :=
  dictUpd d k (dictGetD d k 0 + v)

/-- The keys of an association list, in order. -/
def dictKeys {κ ν : Type} (d : List (κ × ν)) : List κ := d.map (·.1)

/-- Sum of all values of an association list over ℚ (e.g. the total mass of
the co-occurrence count table, `sum(wc_counts.values())`). -/
def tableTotal {κ : Type} (d : List (κ × ℚ)) : ℚ := (d.map (·.2)).sum

/-- Python list indexing `tokens[x]` as used by the window strategies: the
right-hand window indices are already reduced `mod len(tokens)` in the source,
and the left-hand window relies on Python negative indexing, which equals
indexing at `x mod len(tokens)` whenever `-len(tokens) ≤ x < len(tokens)` —
always the case under the document-length guard `len(tokens) > 2L+1`. -/
def pyIdx (n : Nat) (x : Int) : Nat := (x % (n : Int)).toNat

/-- Access `tokens[x]` with Python wraparound index resolution. -/
def tokAt (tokens : List String) (x : Int) : String :=
  tokens.getD (pyIdx tokens.length x) ""

/-- Source `lh_win = list(range(pos-L,pos))` — the raw (possibly negative) left-hand
window indices (model.py line 194). -/
def lh_win (L : Nat) (pos : Nat) : List Int :=
  (List.range L).map (fun (j : Nat) => (pos : Int) - (L : Int) + (j : Int))

/-- Source `rh_win = [mod(x,len(tokens)) for x in list(range(pos+1,pos+L+1))]` —
the right-hand window indices, reduced modulo the document length
(model.py line 196). -/
def rh_win (L : Nat) (n : Nat) (pos : Nat) : List Int :=
  (List.range L).map
    (fun (j : Nat) => ((pos : Int) + 1 + (j : Int)) % (n : Int))

/-- Embeds `PPMIModel.unweighted_context` (model.py lines 188-199): the dictionary
comprehension over `lh_win + rh_win` assigning every context token weight 1
(later duplicates of a token string overwrite earlier ones, as in Python). -/
def unweighted_context (L : Nat) (tokens : List String) (pos : Nat) :
    List (String × ℚ) :=
  (lh_win L pos ++ rh_win L tokens.length pos).foldl
    (fun d x => dictUpd d (tokAt tokens x) 1) []

/-- Source `harm_wts = [(i+1)/L for i in range(L)]` — the ascending linear weight
profile `1/L, 2/L, …, L/L` shared by the glove and word2vec strategies. -/
def harmWts (L : Nat) : List ℚ :=
  (List.range L).map (fun (i : Nat) => ((i : ℚ) + 1) / (L : ℚ))

/-- Embeds `PPMIModel.glove_context` (model.py lines 202-215): the full window
`lh_win + rh_win` zipped with the weights `harm_wts + harm_wts[::-1]`. -/
def glove_context (L : Nat) (tokens : List String) (pos : Nat) :
    List (String × ℚ) :=
  ((lh_win L pos ++ rh_win L tokens.length pos).zip
      (harmWts L ++ (harmWts L).reverse)).foldl
    (fun d xw => dictUpd d (tokAt tokens xw.1) xw.2) []

/-- Embeds `PPMIModel.word2vec_context` (model.py lines 218-234): the left half
window uses the sampled radius `Lp = 1 + randint(L)` (so `Lp ∈ {1,…,L}`),
the right half window keeps the fixed radius `L`, and the combined window is
zipped with the first entries of `harm_wts[::-1] + harm_wts`.  The random
draw is passed in explicitly as `Lp` (the implicit numpy generator of the source
made explicit, one draw per call). -/
def word2vec_context (L : Nat) (Lp : Nat) (tokens : List String) (pos : Nat) :
    List (String × ℚ) :=
  ((lh_win Lp pos ++ rh_win L tokens.length pos).zip
      ((harmWts L).reverse ++ harmWts L)).foldl
    (fun d xw => dictUpd d (tokAt tokens xw.1) xw.2) []

/-- Embeds `PPMIModel.count_pairs` (model.py lines 88-119): stream the corpus one
tokenized document per line, skip documents with `len(tokens) ≤ 2L+1`, and
for every position whose token is in the word list accumulate the weighted
context emitted by the active strategy into the `(word, context)` table.
The strategy dispatch through `self.context_map` is the `ctx` parameter.
The membership test at line 110 reads the undefined module global `word_list`;
this definition resolves it to the supplied vocabulary `self.word_list`, the
behaviour documented by the class docstring (see `count_pairs_globals` for
the literal embedding of line 110). -/
def count_pairs (ctx : List String → Nat → List (String × ℚ))
    (word_list : List String) (L : Nat) (corpus : List (List String)) :
    List ((String × String) × ℚ) :=
  corpus.foldl
    (fun wc tokens =>
      if 2 * L + 1 < tokens.length then
        (List.range tokens.length).foldl
          (fun wc2 i =>
            let word := tokens.getD i ""
            if word ∈ word_list then
              (ctx tokens i).foldl
                (fun wc3 cv =>
                  if cv.1 ∈ word_list then dictAdd wc3 (word, cv.1) cv.2
                  else wc3)
                wc2
            else wc2)
          wc
      else wc)
    []

/-- Literal embedding of `PPMIModel.count_pairs` at line 110: the filter
`if c in word_list:` resolves the name `word_list` in the module-global
scope, passed here as `globalsWL` (`model.py` defines no module-level
`word_list`, so the environment of the caller is `none`).  When the name is
unbound, reaching the filter raises `NameError`; the outer membership test at
line 106 correctly reads `self.word_list` (`selfWL`). -/
def count_pairs_globals (globalsWL : Option (List String))
    (ctx : List String → Nat → List (String × ℚ))
    (selfWL : List String) (L : Nat) (corpus : List (List String)) :
    Except String (List ((String × String) × ℚ)) :=
  corpus.foldlM
    (fun wc tokens =>
      if 2 * L + 1 < tokens.length then
        (List.range tokens.length).foldlM
          (fun wc2 i =>
            let word := tokens.getD i ""
            if word ∈ selfWL then
              (ctx tokens i).foldlM
                (fun wc3 cv =>
                  match globalsWL with
                  | none =>
                      Except.error "NameError: name word_list is not defined"
                  | some gwl =>
                      pure (if cv.1 ∈ gwl then dictAdd wc3 (word, cv.1) cv.2
                            else wc3))
                wc2
            else pure wc2)
          wc
      else pure wc)
    []

/-- Row mass of a word in the count table: the sum of `count(w, ·)` over all
entries whose first key component is `w` (what the first loop of
`calculate_ppmi` accumulates into `Pw[w]`, model.py line 133). -/
def rowMass (wc : List ((String × String) × ℚ)) (w : String) : ℚ :=
  (wc.map (fun e => if e.1.1 = w then e.2 else 0)).sum

/-- Source `Pw[k[0]] += wc_counts[k]` over all pairs (model.py lines 132-133): the
unnormalized word-marginal dictionary. -/
def PwDict (wc : List ((String × String) × ℚ)) : List (String × ℚ) :=
  wc.foldl (fun d e => dictAdd d e.1.1 e.2) []

/-- Source `sum_Pw = sum(Pw.values())` (model.py line 138). -/
def sumPw (wc : List ((String × String) × ℚ)) : ℚ := tableTotal (PwDict wc)

/-- The normalized word marginal `Pw[w]` after the in-place normalization
`Pw[k] = Pw[k]/sum_Pw` (model.py lines 140-141); a missing word reads as 0
through the `defaultdict`. -/
def PwN (wc : List ((String × String) × ℚ)) (w : String) : ℚ :=
  dictGetD (PwDict wc) w 0 / sumPw wc

/-- Source `Pc[k[1]] += power(wc_counts[k], alpha)` (model.py line 134): the
alpha-smoothed context-marginal dictionary.  It is computed and normalized
(lines 139, 142-143) but never read when the scores are produced (lines
147-151), so no other definition below depends on it. -/
noncomputable def PcDict (wc : List ((String × String) × ℚ)) (alpha : ℚ) :
    List (String × ℝ) :=
  wc.foldl (fun d e => dictAdd d e.1.2 ((e.2 : ℝ) ^ (alpha : ℝ))) []

/-- The normalized smoothed context marginal `Pc[c]` (model.py lines 139,
142-143); dead code with respect to the emitted scores. -/
noncomputable def PcN (wc : List ((String × String) × ℚ)) (alpha : ℚ)
    (c : String) : ℝ :=
  dictGetD (PcDict wc alpha) c 0 / ((PcDict wc alpha).map (·.2)).sum

/-- The shifted and clipped PPMI score
`max([log(ppmi_value)-log(k),0.0])` (model.py line 149) as a function of the
rational raw probability ratio `r` and the shift hyperparameter `k`. -/
noncomputable def scoreVal (r k : ℚ) : ℝ :=
  max (Real.log (r : ℝ) - Real.log (k : ℝ)) 0

/-- The retention test `if ppmi_value > 0.0:` (model.py line 150). -/
def keepScore (r k : ℚ) : Prop := 0 < scoreVal r k

instance (r k : ℚ) : Decidable (keepScore r k) :=
  decidable_of_iff
    ((r = 0 ∧ ¬k = 0 ∧ |k| < 1) ∨ (¬r = 0 ∧ k = 0 ∧ 1 < |r|) ∨
      (¬r = 0 ∧ ¬k = 0 ∧ |k| < |r|))
    (by
      unfold keepScore scoreVal
      rw [lt_max_iff]
      simp only [lt_self_iff_false, or_false, sub_pos]
      rw [← Real.log_abs (r : ℝ), ← Real.log_abs (k : ℝ)]
      constructor
      · rintro (⟨hr, hk, h⟩ | ⟨hr, hk, h⟩ | ⟨hr, hk, h⟩)
        · rw [hr]
          simp only [Rat.cast_zero, abs_zero, Real.log_zero]
          rw [Real.log_neg_iff (by rw [abs_pos]; exact_mod_cast hk)]
          exact_mod_cast h
        · rw [hk]
          simp only [Rat.cast_zero, abs_zero, Real.log_zero]
          rw [Real.log_pos_iff (by rw [abs_pos]; exact_mod_cast hr)]
          exact_mod_cast h
        · rw [Real.log_lt_log_iff (by rw [abs_pos]; exact_mod_cast hk)
            (by rw [abs_pos]; exact_mod_cast hr)]
          exact_mod_cast h
      · intro h
        rcases eq_or_ne r 0 with hr | hr
        · rcases eq_or_ne k 0 with hk | hk
          · rw [hr, hk] at h
            simp at h
          · refine Or.inl ⟨hr, hk, ?_⟩
            rw [hr] at h
            simp only [Rat.cast_zero, abs_zero, Real.log_zero] at h
            rw [Real.log_neg_iff (by rw [abs_pos]; exact_mod_cast hk)] at h
            exact_mod_cast h
        · rcases eq_or_ne k 0 with hk | hk
          · refine Or.inr (Or.inl ⟨hr, hk, ?_⟩)
            rw [hk] at h
            simp only [Rat.cast_zero, abs_zero, Real.log_zero] at h
            rw [Real.log_pos_iff (by rw [abs_pos]; exact_mod_cast hr)] at h
            exact_mod_cast h
          · refine Or.inr (Or.inr ⟨hr, hk, ?_⟩)
            rw [Real.log_lt_log_iff (by rw [abs_pos]; exact_mod_cast hk)
              (by rw [abs_pos]; exact_mod_cast hr)] at h
            exact_mod_cast h)

/-- The PPMI vector space: word → context → positive score. -/
abbrev PPMISpace := List (String × List (String × ℝ))

/-- The first-pass initialization `ppmi[k[0]] = {}` over every pair key
(model.py line 135): the outer mapping holds one (initially empty) inner
dictionary per word that occurs as the first component of a counted pair. -/
def outerInit (wc : List ((String × String) × ℚ)) : PPMISpace :=
  wc.foldl (fun d e => dictUpd d e.1.1 []) []

/-- Source `ppmi[k[0]][k[1]] = ppmi_value` (model.py line 151): update the inner
dictionary of word `w` in place. -/
def insertInner (d : PPMISpace) (w c : String) (s : ℝ) : PPMISpace :=
  d.map (fun p => if p.1 = w then (p.1, dictUpd p.2 c s) else p)

/-- First-match lookup in an inner score dictionary (`ppmi[w][c]`). -/
def dictFind : List (String × ℝ) → String → Option ℝ
  | [], _ => none
  | q :: rest, c => if q.1 = c then some q.2 else dictFind rest c

/-- Inner lookup in a `PPMISpace`: the score of context `c` in the vector of
word `w`, when both are present. -/
def lookupInner : PPMISpace → String → String → Option ℝ
  | [], _, _ => none
  | p :: rest, w, c => if p.1 = w then dictFind p.2 c else lookupInner rest w c

/-- Embeds `PPMIModel.calculate_ppmi` (model.py lines 122-156): one pass accumulates
the marginals `Pw` (and the unused smoothed `Pc`, see `PcDict`) and creates
the outer keys; after normalization, a second pass over the pairs computes
`ppmi_value = (wc_counts[k]/sum_Pwc)/(Pw[k[0]]*Pw[k[1]])`, shifts and clips
it (`scoreVal`), and retains it only when it is strictly positive
(`keepScore`).  `alpha` only feeds the dead `Pc` computation, so the result
does not depend on it.  The function performs no validation of its inputs:
there is no check that the total count mass is positive or that `k > 0`. -/
noncomputable def calculate_ppmi (wc : List ((String × String) × ℚ))
    (k _alpha : ℚ) :
    PPMISpace :=
  wc.foldl
    (fun d e =>
      if keepScore ((e.2 / tableTotal wc) / (PwN wc e.1.1 * PwN wc e.1.2)) k
      then insertInner d e.1.1 e.1.2
        (scoreVal ((e.2 / tableTotal wc) / (PwN wc e.1.1 * PwN wc e.1.2)) k)
      else d)
    (outerInit wc)

/-- The squared L2 norm of a PPMI vector,
`sum([x**2 for x in ppmi[w].values()])` (model.py line 180). -/
noncomputable def sqNorm (v : List (String × ℝ)) : ℝ :=
  (v.map (fun p => p.2 ^ 2)).sum

/-- The per-pair cosine of `PPMIModel.calculate_sims` (model.py lines
168-181): the numerator sums `ppmi[w_i][c]*ppmi[w_j][c]` over the contexts
common to both vectors, the denominator is the product of the two full L2
norms, and the quotient is taken with no guard on a zero denominator. -/
noncomputable def cosSim (vi vj : List (String × ℝ)) : ℝ :=
  ((vi.filter (fun p => (vj.map (·.1)).contains p.1)).map
      (fun p => p.2 * dictGetD vj p.1 0)).sum /
    (Real.sqrt (sqNorm vi) * Real.sqrt (sqNorm vj))

/-- The double loop `for i / for j in range(i+1, …)` of `calculate_sims`
(model.py lines 166-181): one cosine entry per ordered index pair `i < j`
of words in the PPMI space. -/
noncomputable def pairSims : PPMISpace → List ((String × String) × ℝ)
  | [] => []
  | p :: rest =>
      (rest.map (fun q => ((p.1, q.1), cosSim p.2 q.2))) ++ pairSims rest

/-- The outcome of `PPMIModel.calculate_sims` (model.py lines 159-186): the
`sims` dictionary that is built and pickled, and the return
value.  The body has no `return` statement, so the Python call returns
`None`. -/
structure SimsResult where
  persisted : List ((String × String) × ℝ)
  ret : Option (List ((String × String) × ℝ))

/-- Embeds `PPMIModel.calculate_sims`: builds and persists all pairwise
similarities, falls off the end of the body, and therefore returns `None`. -/
noncomputable def calculate_sims (ppmi : PPMISpace) : SimsResult :=
  { persisted := pairSims ppmi, ret := none }

/-- Embeds `PPMIModel.train` (model.py lines 66-85): counts pairs, computes PPMI,
computes similarities, and returns the value produced by `calculate_sims`. -/
noncomputable def train (ctx : List String → Nat → List (String × ℚ))
    (word_list : List String) (L : Nat) (corpus : List (List String))
    (k alpha : ℚ) : Option (List ((String × String) × ℝ)) :=
  (calculate_sims (calculate_ppmi (count_pairs ctx word_list L corpus) k
    alpha)).ret

/-- Pointwise positive scaling of a PPMI vector (used to state the
scalar-multiple cosine property). -/
def scaleV (a : ℝ) (v : List (String × ℝ)) : List (String × ℝ) :=
  v.map (fun p => (p.1, a * p.2))

/-- Modelled from the spec conservation property, in the spec's own words:
the sum, over every vocabulary-member token occurrence in every processed
(long-enough) document, of all the weights in the context mapping emitted by
the window strategy for that occurrence (no vocabulary filter on the
context tokens). -/
def specEmittedTotal (ctx : List String → Nat → List (String × ℚ))
    (word_list : List String) (L : Nat) (corpus : List (List String)) : ℚ :=
  (corpus.map (fun tokens =>
    if 2 * L + 1 < tokens.length then
      ((List.range tokens.length).map (fun i =>
        if tokens.getD i "" ∈ word_list then ((ctx tokens i).map (·.2)).sum
        else 0)).sum
    else 0)).sum

/-- Like `specEmittedTotal`, but counting only the emitted context weights
whose context token is itself a member of the vocabulary — the portion of
the emitted weight that `count_pairs` actually accumulates. -/
def emittedVocabTotal (ctx : List String → Nat → List (String × ℚ))
    (word_list : List String) (L : Nat) (corpus : List (List String)) : ℚ :=
  (corpus.map (fun tokens =>
    if 2 * L + 1 < tokens.length then
      ((List.range tokens.length).map (fun i =>
        if tokens.getD i "" ∈ word_list then
          ((ctx tokens i).map (fun cv => if cv.1 ∈ word_list then cv.2
            else 0)).sum
        else 0)).sum
    else 0)).sum

theorem tableTotal_cons {κ : Type} (p : κ × ℚ) (l : List (κ × ℚ)) :
    tableTotal (p :: l) = p.2 + tableTotal l := by
  simp [tableTotal]

theorem tableTotal_dictAdd {κ : Type} [DecidableEq κ] (d : List (κ × ℚ))
    (k : κ) (v : ℚ) : tableTotal (dictAdd d k v) = tableTotal d + v := by
  induction d with
  | nil => simp [dictAdd, dictUpd, dictGetD, tableTotal]
  | cons p rest ih =>
      by_cases h : p.1 = k
      · simp only [dictAdd, dictUpd, dictGetD, if_pos h, tableTotal,
          List.map_cons, List.sum_cons]
        ring
      · simp only [dictAdd, dictGetD, if_neg h, dictUpd] at ih ⊢
        rw [tableTotal_cons, tableTotal_cons, ih]
        ring

theorem tableTotal_foldl {α κ : Type} [DecidableEq κ]
    (f : List (κ × ℚ) → α → List (κ × ℚ)) (g : α → ℚ)
    (hf : ∀ t a, tableTotal (f t a) = tableTotal t + g a) :
    ∀ (l : List α) (t0 : List (κ × ℚ)),
      tableTotal (l.foldl f t0) = tableTotal t0 + (l.map g).sum := by
  intro l
  induction l with
  | nil => intro t0; simp
  | cons a l ih =>
      intro t0
      simp only [List.foldl_cons, List.map_cons, List.sum_cons, ih, hf]
      ring

theorem tableTotal_ctx_foldl (wl : List String) (word : String)
    (items : List (String × ℚ)) (t0 : List ((String × String) × ℚ)) :
    tableTotal (items.foldl
        (fun t cv => if cv.1 ∈ wl then dictAdd t (word, cv.1) cv.2 else t) t0)
      = tableTotal t0 +
        (items.map (fun cv => if cv.1 ∈ wl then cv.2 else 0)).sum := by
  refine tableTotal_foldl _ _ ?_ items t0
  intro t cv
  by_cases h : cv.1 ∈ wl
  · simp [h, tableTotal_dictAdd]
  · simp [h]

theorem tableTotal_pos_foldl (ctx : List String → Nat → List (String × ℚ))
    (wl : List String) (tokens : List String) (idxs : List Nat)
    (t0 : List ((String × String) × ℚ)) :
    tableTotal (idxs.foldl
        (fun t i =>
          if tokens.getD i "" ∈ wl then
            (ctx tokens i).foldl
              (fun t2 cv =>
                if cv.1 ∈ wl then dictAdd t2 (tokens.getD i "", cv.1) cv.2
                else t2)
              t
          else t)
        t0)
      = tableTotal t0 +
        (idxs.map (fun i =>
          if tokens.getD i "" ∈ wl then
            ((ctx tokens i).map (fun cv => if cv.1 ∈ wl then cv.2 else 0)).sum
          else 0)).sum := by
  refine tableTotal_foldl _ _ ?_ idxs t0
  intro t i
  by_cases h : tokens.getD i "" ∈ wl
  · simp only [if_pos h, tableTotal_ctx_foldl]
  · rw [if_neg h, if_neg h]
    simp

/-- C4 (counterexample): with vocabulary `{b}`, the single document
`a b c d` and `L = 1` (unweighted), the context mapping emitted for the one
vocabulary-member occurrence (`b` at position 1) has total weight 2
(`a` and `c`, both outside the vocabulary), but the count table accumulates
total weight 0 — the claimed conservation equality is false as stated. -/
theorem C4_cex :
    ¬ (tableTotal (count_pairs (unweighted_context 1) ["b"] 1
          [["a", "b", "c", "d"]]) =
        specEmittedTotal (unweighted_context 1) ["b"] 1
          [["a", "b", "c", "d"]]) := by
  with_unfolding_all decide

/-- C4 (amended): for every window strategy, vocabulary, half-window radius
and corpus, the total weight accumulated into the count table equals the
sum, over every vocabulary-member token occurrence in every processed
(long-enough) document, of those emitted context weights whose context
token is itself in the vocabulary (out-of-vocabulary context tokens are
filtered out by the counting loop and contribute nothing). -/
theorem count_pairs_mass_conservation
    (ctx : List String → Nat → List (String × ℚ)) (wl : List String)
    (L : Nat) (corpus : List (List String)) :
    tableTotal (count_pairs ctx wl L corpus) =
      emittedVocabTotal ctx wl L corpus := by
  unfold count_pairs emittedVocabTotal
  rw [tableTotal_foldl _
    (fun tokens =>
      if 2 * L + 1 < tokens.length then
        ((List.range tokens.length).map (fun i =>
          if tokens.getD i "" ∈ wl then
            ((ctx tokens i).map (fun cv => if cv.1 ∈ wl then cv.2 else 0)).sum
          else 0)).sum
      else 0)
    ?_ corpus []]
  · simp [tableTotal]
  · intro t tokens
    by_cases h : 2 * L + 1 < tokens.length
    · simp only [if_pos h, tableTotal_pos_foldl]
    · simp [h]

/-- C1: on the single-document corpus `a b c d e` with vocabulary
`{a,b,c,d,e}`, `L = 1` and unweighted windowing, pair counting produces
exactly the ten ordered-pair entries
(a,e),(a,b),(b,a),(b,c),(c,b),(c,d),(d,c),(d,e),(e,d),(e,a), each with
weight 1 — the windows wrap circularly at both document edges. -/
theorem C1_wraparound_scenario :
    count_pairs (unweighted_context 1) ["a", "b", "c", "d", "e"] 1
      [["a", "b", "c", "d", "e"]] =
    [(("a", "e"), 1), (("a", "b"), 1), (("b", "a"), 1), (("b", "c"), 1),
     (("c", "b"), 1), (("c", "d"), 1), (("d", "c"), 1), (("d", "e"), 1),
     (("e", "d"), 1), (("e", "a"), 1)] := by
  with_unfolding_all decide

/-- C3: the context-membership filter of `count_pairs` (model.py line 110)
does not consult the supplied vocabulary: it reads the name `word_list`,
which is not defined in the module-global scope, so the first context
item of the first vocabulary-member token raises `NameError` (first
conjunct, literal embedding with an empty global binding).  Under the
documented intent — the filter reading the supplied vocabulary
`self.word_list` — context tokens outside the vocabulary contribute
nothing (second conjunct: with vocabulary `{a}` and document `a b c d`,
the out-of-vocabulary context tokens of the occurrence of `a` are all
dropped and the table stays empty). -/
theorem C3_context_filter_global_name :
    count_pairs_globals none (unweighted_context 1) ["a"] 1
        [["a", "b", "c", "d"]] =
      Except.error "NameError: name word_list is not defined" ∧
    count_pairs (unweighted_context 1) ["a"] 1 [["a", "b", "c", "d"]] = [] := by
  constructor
  · with_unfolding_all rfl
  · with_unfolding_all decide

theorem pyIdx_eq_iff (n pos : Nat) (x : Int) (hn : 0 < n) :
    pyIdx n x = pos ↔ x % (n : Int) = (pos : Int) := by
  unfold pyIdx
  constructor
  · intro h
    have hge : 0 ≤ x % (n : Int) :=
      Int.emod_nonneg x (by exact_mod_cast hn.ne')
    rw [← h, Int.toNat_of_nonneg hge]
  · intro h
    rw [h]
    simp

theorem pyIdx_shift_ne (n pos : Nat) (d : Int) (hpos : pos < n)
    (hd0 : d ≠ 0) (hdn : |d| < (n : Int)) :
    pyIdx n ((pos : Int) + d) ≠ pos := by
  intro h
  have hn : 0 < n := lt_of_le_of_lt (Nat.zero_le pos) hpos
  rw [pyIdx_eq_iff n pos _ hn] at h
  have hpp : (pos : Int) % (n : Int) = (pos : Int) :=
    Int.emod_eq_of_lt (by positivity) (by exact_mod_cast hpos)
  have hmeq : ((pos : Int) + d) % (n : Int) = (pos : Int) % (n : Int) := by
    rw [h, hpp]
  have hdvd : (n : Int) ∣ (pos : Int) - ((pos : Int) + d) :=
    Int.ModEq.dvd hmeq
  have hdvd2 : (n : Int) ∣ d := by
    have : (pos : Int) - ((pos : Int) + d) = -d := by ring
    rw [this] at hdvd
    exact (dvd_neg.1 hdvd)
  have habs : (n : Int) ∣ |d| := (dvd_abs _ _).2 hdvd2
  have := Int.le_of_dvd (abs_pos.2 hd0) habs
  omega

theorem mem_lh_win {M pos : Nat} {x : Int} :
    x ∈ lh_win M pos ↔
      ∃ j : Nat, j < M ∧ x = (pos : Int) - (M : Int) + (j : Int) := by
  unfold lh_win
  rw [List.mem_map]
  constructor
  · rintro ⟨j, hj, rfl⟩
    exact ⟨j, List.mem_range.1 hj, rfl⟩
  · rintro ⟨j, hj, rfl⟩
    exact ⟨j, List.mem_range.2 hj, rfl⟩

theorem mem_rh_win {L n pos : Nat} {x : Int} :
    x ∈ rh_win L n pos ↔
      ∃ j : Nat, j < L ∧
        x = ((pos : Int) + 1 + (j : Int)) % (n : Int) := by
  unfold rh_win
  rw [List.mem_map]
  constructor
  · rintro ⟨j, hj, rfl⟩
    exact ⟨j, List.mem_range.1 hj, rfl⟩
  · rintro ⟨j, hj, rfl⟩
    exact ⟨j, List.mem_range.2 hj, rfl⟩

theorem window_center_ne (L M n pos : Nat) (hM : M ≤ L)
    (hlen : 2 * L + 1 < n) (hpos : pos < n) :
    ∀ x ∈ lh_win M pos ++ rh_win L n pos, pyIdx n x ≠ pos := by
  intro x hx
  rcases List.mem_append.1 hx with hx | hx
  · obtain ⟨j, hj, rfl⟩ := mem_lh_win.1 hx
    have hrw : (pos : Int) - (M : Int) + (j : Int) =
        (pos : Int) + ((j : Int) - (M : Int)) := by ring
    rw [hrw]
    apply pyIdx_shift_ne n pos _ hpos
    · omega
    · have : |(j : Int) - (M : Int)| = (M : Int) - (j : Int) := by
        rw [abs_of_neg (by omega)]
        ring
      rw [this]
      omega
  · obtain ⟨j, hj, rfl⟩ := mem_rh_win.1 hx
    have hcollapse :
        pyIdx n (((pos : Int) + 1 + (j : Int)) % (n : Int)) =
          pyIdx n ((pos : Int) + 1 + (j : Int)) := by
      unfold pyIdx
      rw [Int.emod_emod_of_dvd _ dvd_rfl]
    rw [hcollapse]
    have hrw : (pos : Int) + 1 + (j : Int) =
        (pos : Int) + (1 + (j : Int)) := by ring
    rw [hrw]
    apply pyIdx_shift_ne n pos _ hpos
    · omega
    · have : |1 + (j : Int)| = 1 + (j : Int) := abs_of_pos (by omega)
      rw [this]
      omega

theorem mem_dictKeys_dictUpd {κ ν : Type} [DecidableEq κ]
    (d : List (κ × ν)) (k : κ) (v : ν) (s : κ) :
    s ∈ dictKeys (dictUpd d k v) → s = k ∨ s ∈ dictKeys d := by
  induction d with
  | nil => simp [dictUpd, dictKeys]
  | cons p rest ih =>
      by_cases h : p.1 = k
      · simp only [dictUpd, if_pos h, dictKeys, List.map_cons, List.mem_cons]
        rintro (rfl | hs)
        · exact Or.inl rfl
        · exact Or.inr (Or.inr hs)
      · simp only [dictUpd, if_neg h, dictKeys, List.map_cons, List.mem_cons]
        rintro (rfl | hs)
        · exact Or.inr (Or.inl rfl)
        · rcases ih hs with h1 | h1
          · exact Or.inl h1
          · exact Or.inr (Or.inr h1)

theorem dictKeys_ctxfold_subset {α κ ν : Type} [DecidableEq κ]
    (key : α → κ) (wt : α → ν) :
    ∀ (l : List α) (d0 : List (κ × ν)),
      ∀ s ∈ dictKeys (l.foldl (fun d x => dictUpd d (key x) (wt x)) d0),
        s ∈ dictKeys d0 ∨ s ∈ l.map key := by
  intro l
  induction l with
  | nil => simp
  | cons a l ih =>
      intro d0 s hs
      rw [List.foldl_cons] at hs
      rcases ih (dictUpd d0 (key a) (wt a)) s hs with h | h
      · rcases mem_dictKeys_dictUpd _ _ _ _ h with h1 | h1
        · right
          rw [h1]
          exact List.mem_map_of_mem _ (List.mem_cons_self _ _)
        · exact Or.inl h1
      · right
        rw [List.map_cons]
        exact List.mem_cons_of_mem _ h

theorem dictKeys_unweighted_fold (tokens : List String) (win : List Int)
    (s : String)
    (hs : s ∈ dictKeys (win.foldl
        (fun d x => dictUpd d (tokAt tokens x) (1 : ℚ)) [])) :
    ∃ x, x ∈ win ∧ s = tokAt tokens x := by
  rcases dictKeys_ctxfold_subset (fun x => tokAt tokens x)
      (fun _ => (1 : ℚ)) win [] s hs with h | h
  · simp [dictKeys] at h
  · obtain ⟨x, hx, rfl⟩ := List.mem_map.1 h
    exact ⟨x, hx, rfl⟩

theorem dictKeys_zipfold_window (tokens : List String) (win : List Int)
    (wts : List ℚ) (s : String)
    (hs : s ∈ dictKeys ((win.zip wts).foldl
        (fun d xw => dictUpd d (tokAt tokens xw.1) xw.2) [])) :
    ∃ x, x ∈ win ∧ s = tokAt tokens x := by
  rcases dictKeys_ctxfold_subset (fun xw => tokAt tokens xw.1)
      (fun xw => xw.2) (win.zip wts) [] s hs with h | h
  · simp [dictKeys] at h
  · obtain ⟨xw, hxw, rfl⟩ := List.mem_map.1 h
    exact ⟨xw.1, (List.of_mem_zip hxw).1, rfl⟩

/-- C5: for every weighting strategy (unweighted, glove, word2vec with any
sampled left radius `Lp ∈ {1,…,L}`), every document longer than `2L+1` and
every center position, no window index resolves to the center position
itself — even where the raw indices run off the document edges and wrap —
and every key of the produced context mapping is drawn from a window index,
hence never from the center position. -/
theorem C5_center_excluded (L Lp pos : Nat) (tokens : List String)
    (hlen : 2 * L + 1 < tokens.length) (hpos : pos < tokens.length)
    (hLp1 : 1 ≤ Lp) (hLpL : Lp ≤ L) :
    (∀ x ∈ lh_win L pos ++ rh_win L tokens.length pos,
        pyIdx tokens.length x ≠ pos) ∧
    (∀ x ∈ lh_win Lp pos ++ rh_win L tokens.length pos,
        pyIdx tokens.length x ≠ pos) ∧
    (∀ s ∈ dictKeys (unweighted_context L tokens pos),
        ∃ x, (x ∈ lh_win L pos ++ rh_win L tokens.length pos) ∧
          pyIdx tokens.length x ≠ pos ∧ s = tokAt tokens x) ∧
    (∀ s ∈ dictKeys (glove_context L tokens pos),
        ∃ x, (x ∈ lh_win L pos ++ rh_win L tokens.length pos) ∧
          pyIdx tokens.length x ≠ pos ∧ s = tokAt tokens x) ∧
    (∀ s ∈ dictKeys (word2vec_context L Lp tokens pos),
        ∃ x, (x ∈ lh_win Lp pos ++ rh_win L tokens.length pos) ∧
          pyIdx tokens.length x ≠ pos ∧ s = tokAt tokens x) := by
  have hfull := window_center_ne L L tokens.length pos le_rfl hlen hpos
  have hvar := window_center_ne L Lp tokens.length pos hLpL hlen hpos
  refine ⟨hfull, hvar, ?_, ?_, ?_⟩
  · intro s hs
    obtain ⟨x, hx, hsx⟩ := dictKeys_unweighted_fold tokens _ s hs
    exact ⟨x, hx, hfull x hx, hsx⟩
  · intro s hs
    obtain ⟨x, hx, hsx⟩ := dictKeys_zipfold_window tokens _ _ s hs
    exact ⟨x, hx, hfull x hx, hsx⟩
  · intro s hs
    obtain ⟨x, hx, hsx⟩ := dictKeys_zipfold_window tokens _ _ s hs
    exact ⟨x, hx, hvar x hx, hsx⟩

/-- C5 (witness): the center-exclusion theorem instantiated at the concrete
document `a b c d`, `L = 1`, sampled left radius 1 and center position 0. -/
theorem C5_center_excluded_witness :
    (2 * 1 + 1 < (["a", "b", "c", "d"] : List String).length ∧
      0 < (["a", "b", "c", "d"] : List String).length ∧ 1 ≤ 1 ∧ 1 ≤ 1) ∧
    (∀ x ∈ lh_win 1 0 ++ rh_win 1 (["a", "b", "c", "d"] : List String).length 0,
        pyIdx (["a", "b", "c", "d"] : List String).length x ≠ 0) :=
  ⟨⟨by decide, by decide, by decide, by decide⟩,
    (C5_center_excluded 1 1 0 ["a", "b", "c", "d"] (by decide) (by decide)
      (by decide) (by decide)).1⟩

theorem dictFind_dictUpd (v : List (String × ℝ)) (c' c : String) (s : ℝ) :
    dictFind (dictUpd v c' s) c = if c = c' then some s else dictFind v c := by
  induction v with
  | nil =>
      simp only [dictUpd, dictFind]
      by_cases h : c = c'
      · rw [if_pos h.symm, if_pos h]
      · rw [if_neg (fun hh => h hh.symm), if_neg h]
  | cons q rest ih =>
      simp only [dictUpd]
      by_cases hq : q.1 = c'
      · rw [if_pos hq]
        by_cases h : c = c'
        · simp only [dictFind, if_pos h, if_pos h.symm]
        · simp only [dictFind, if_neg h]
          rw [if_neg (fun hh : c' = c => h hh.symm),
            if_neg (fun hh : q.1 = c => h (hh.symm.trans hq))]
      · rw [if_neg hq]
        simp only [dictFind]
        by_cases h : q.1 = c
        · rw [if_pos h, if_neg (fun hcc : c = c' => hq (h.trans hcc)), if_pos h]
        · rw [if_neg h, ih]
          by_cases hcc : c = c'
          · rw [if_pos hcc, if_pos hcc]
          · rw [if_neg hcc, if_neg hcc, if_neg h]

theorem dictKeys_insertInner (d : PPMISpace) (w c : String) (s : ℝ) :
    dictKeys (insertInner d w c s) = dictKeys d := by
  induction d with
  | nil => rfl
  | cons p rest ih =>
      simp only [insertInner, dictKeys, List.map_cons] at *
      by_cases h : p.1 = w
      · rw [if_pos h, ih]
      · rw [if_neg h, ih]

theorem lookupInner_insertInner_other (d : PPMISpace) (w' c' w c : String)
    (s : ℝ) (h : ¬w = w' ∨ ¬c = c') :
    lookupInner (insertInner d w' c' s) w c = lookupInner d w c := by
  induction d with
  | nil => rfl
  | cons p rest ih =>
      simp only [insertInner, List.map_cons] at ih ⊢
      by_cases hp : p.1 = w'
      · rw [if_pos hp]
        by_cases hw : p.1 = w
        · have hcc : ¬c = c' := by
            rcases h with h1 | h1
            · exact absurd (hw.symm.trans hp) h1
            · exact h1
          simp only [lookupInner, if_pos hw]
          rw [dictFind_dictUpd, if_neg hcc]
        · simp only [lookupInner, if_neg hw]
          exact ih
      · rw [if_neg hp]
        by_cases hw : p.1 = w
        · simp only [lookupInner, if_pos hw]
        · simp only [lookupInner, if_neg hw]
          exact ih

theorem lookupInner_insertInner_self (d : PPMISpace) (w c : String) (s : ℝ)
    (h : w ∈ dictKeys d) :
    lookupInner (insertInner d w c s) w c = some s := by
  induction d with
  | nil => simp [dictKeys] at h
  | cons p rest ih =>
      simp only [insertInner, List.map_cons]
      by_cases hp : p.1 = w
      · rw [if_pos hp]
        simp only [lookupInner, if_pos hp]
        rw [dictFind_dictUpd]
        simp
      · rw [if_neg hp]
        simp only [lookupInner, if_neg hp]
        rcases List.mem_cons.1 h with h1 | h1
        · exact absurd h1.symm hp
        · simpa only [insertInner] using ih h1

theorem mem_dictUpd {κ ν : Type} [DecidableEq κ] (d : List (κ × ν)) (k : κ)
    (v : ν) (p : κ × ν) (h : p ∈ dictUpd d k v) : p = (k, v) ∨ p ∈ d := by
  induction d with
  | nil => simpa [dictUpd] using h
  | cons q rest ih =>
      by_cases hq : q.1 = k
      · simp only [dictUpd, if_pos hq] at h
        rcases List.mem_cons.1 h with h1 | h1
        · exact Or.inl h1
        · exact Or.inr (List.mem_cons_of_mem _ h1)
      · simp only [dictUpd, if_neg hq] at h
        rcases List.mem_cons.1 h with h1 | h1
        · exact Or.inr (h1 ▸ List.mem_cons_self _ _)
        · rcases ih h1 with h2 | h2
          · exact Or.inl h2
          · exact Or.inr (List.mem_cons_of_mem _ h2)

theorem outerInit_vals (wc : List ((String × String) × ℚ)) :
    ∀ p ∈ outerInit wc, p.2 = ([] : List (String × ℝ)) := by
  suffices h : ∀ (l : List ((String × String) × ℚ)) (d0 : PPMISpace),
      (∀ p ∈ d0, p.2 = []) →
      ∀ p ∈ l.foldl (fun d e => dictUpd d e.1.1 []) d0, p.2 = [] by
    exact h wc [] (by simp)
  intro l
  induction l with
  | nil =>
      intro d0 h0 p hp
      exact h0 p hp
  | cons e rest ih =>
      intro d0 h0 p hp
      refine ih _ ?_ p hp
      intro q hq
      rcases mem_dictUpd _ _ _ _ hq with h1 | h1
      · rw [h1]
      · exact h0 q h1

theorem lookupInner_all_nil (d : PPMISpace)
    (h : ∀ p ∈ d, p.2 = []) (w c : String) :
    lookupInner d w c = none := by
  induction d with
  | nil => rfl
  | cons p rest ih =>
      simp only [lookupInner]
      by_cases hp : p.1 = w
      · rw [if_pos hp, h p (List.mem_cons_self _ _)]
        rfl
      · rw [if_neg hp]
        exact ih (fun q hq => h q (List.mem_cons_of_mem _ hq))

theorem lookupInner_outerInit (wc : List ((String × String) × ℚ))
    (w c : String) : lookupInner (outerInit wc) w c = none :=
  lookupInner_all_nil _ (outerInit_vals wc) w c

theorem mem_dictKeys_dictUpd_self {κ ν : Type} [DecidableEq κ]
    (d : List (κ × ν)) (k : κ) (v : ν) : k ∈ dictKeys (dictUpd d k v) := by
  induction d with
  | nil => simp [dictUpd, dictKeys]
  | cons q rest ih =>
      by_cases hq : q.1 = k
      · simp [dictUpd, dictKeys, hq]
      · simp only [dictUpd, if_neg hq, dictKeys, List.map_cons]
        exact List.mem_cons_of_mem _ ih

theorem dictKeys_dictUpd_mono {κ ν : Type} [DecidableEq κ]
    (d : List (κ × ν)) (k : κ) (v : ν) (s : κ) (h : s ∈ dictKeys d) :
    s ∈ dictKeys (dictUpd d k v) := by
  induction d with
  | nil => simp [dictKeys] at h
  | cons q rest ih =>
      by_cases hq : q.1 = k
      · simp only [dictUpd, if_pos hq, dictKeys, List.map_cons,
          List.mem_cons] at h ⊢
        rcases h with h | h
        · exact Or.inl (h.trans hq)
        · exact Or.inr h
      · simp only [dictUpd, if_neg hq, dictKeys, List.map_cons,
          List.mem_cons] at h ⊢
        rcases h with h | h
        · exact Or.inl h
        · exact Or.inr (ih h)

theorem mem_dictKeys_outerInit (wc : List ((String × String) × ℚ))
    (w c : String) (v : ℚ) (hmem : ((w, c), v) ∈ wc) :
    w ∈ dictKeys (outerInit wc) := by
  suffices h : ∀ (l : List ((String × String) × ℚ)) (d0 : PPMISpace),
      (((w, c), v) ∈ l ∨ w ∈ dictKeys d0) →
      w ∈ dictKeys (l.foldl (fun d e => dictUpd d e.1.1 []) d0) by
    exact h wc [] (Or.inl hmem)
  intro l
  induction l with
  | nil =>
      intro d0 h
      rcases h with h | h
      · exact absurd h (List.not_mem_nil _)
      · exact h
  | cons e rest ih =>
      intro d0 h
      refine ih _ ?_
      rcases h with h | h
      · rcases List.mem_cons.1 h with h1 | h1
        · right
          rw [← h1]
          exact mem_dictKeys_dictUpd_self _ _ _
        · exact Or.inl h1
      · exact Or.inr (dictKeys_dictUpd_mono _ _ _ _ h)

theorem insertInner_not_mem (d : PPMISpace) (w c : String) (s : ℝ)
    (h : w ∉ dictKeys d) : insertInner d w c s = d := by
  induction d with
  | nil => rfl
  | cons p rest ih =>
      simp only [dictKeys, List.map_cons, List.mem_cons] at h
      push_neg at h
      simp only [insertInner, List.map_cons]
      rw [if_neg (fun hh : p.1 = w => h.1 hh.symm)]
      have := ih (by simpa [dictKeys] using h.2)
      simp only [insertInner] at this
      rw [this]

theorem lookupInner_insertInner_cases (d : PPMISpace) (w' c' w c : String)
    (s' s : ℝ) (h : lookupInner (insertInner d w' c' s') w c = some s) :
    s = s' ∨ lookupInner d w c = some s := by
  by_cases hw : w = w'
  · by_cases hc : c = c'
    · subst hw
      subst hc
      by_cases hk : w ∈ dictKeys d
      · rw [lookupInner_insertInner_self d w c s' hk] at h
        exact Or.inl (Option.some.inj h).symm
      · rw [insertInner_not_mem d w c s' hk] at h
        exact Or.inr h
    · rw [lookupInner_insertInner_other d w' c' w c s' (Or.inr hc)] at h
      exact Or.inr h
  · rw [lookupInner_insertInner_other d w' c' w c s' (Or.inl hw)] at h
    exact Or.inr h

theorem lookupInner_calc_stable
    (P : ((String × String) × ℚ) → Prop) [DecidablePred P]
    (V : ((String × String) × ℚ) → ℝ) (w c : String) :
    ∀ (l : List ((String × String) × ℚ)) (d : PPMISpace),
      (w, c) ∉ l.map (·.1) →
      lookupInner (l.foldl
          (fun d e => if P e then insertInner d e.1.1 e.1.2 (V e) else d) d)
          w c
        = lookupInner d w c := by
  intro l
  induction l with
  | nil =>
      intro d _
      rfl
  | cons e rest ih =>
      intro d hnot
      rw [List.map_cons, List.mem_cons] at hnot
      push_neg at hnot
      rw [List.foldl_cons, ih _ hnot.2]
      have horc : ¬w = e.1.1 ∨ ¬c = e.1.2 := by
        by_cases h1 : w = e.1.1
        · refine Or.inr fun h2 => hnot.1 ?_
          rw [h1, h2]
        · exact Or.inl h1
      by_cases hP : P e
      · rw [if_pos hP, lookupInner_insertInner_other _ _ _ _ _ _ horc]
      · rw [if_neg hP]

theorem lookupInner_calc_foldl
    (P : ((String × String) × ℚ) → Prop) [DecidablePred P]
    (V : ((String × String) × ℚ) → ℝ) (w c : String) (v : ℚ) :
    ∀ (l : List ((String × String) × ℚ)) (d0 : PPMISpace),
      (l.map (·.1)).Nodup → ((w, c), v) ∈ l → w ∈ dictKeys d0 →
      lookupInner d0 w c = none →
      lookupInner (l.foldl
          (fun d e => if P e then insertInner d e.1.1 e.1.2 (V e) else d) d0)
          w c
        = if P ((w, c), v) then some (V ((w, c), v)) else none := by
  intro l
  induction l with
  | nil =>
      intro d0 _ hmem
      exact absurd hmem (List.not_mem_nil _)
  | cons e rest ih =>
      intro d0 hnd hmem hkey hnone
      rw [List.map_cons, List.nodup_cons] at hnd
      rw [List.foldl_cons]
      rcases List.mem_cons.1 hmem with h1 | h1
      · have he := h1.symm
        subst he
        have hfst : (w, c) ∉ rest.map (·.1) := by
          simpa using hnd.1
        rw [lookupInner_calc_stable P V w c rest _ hfst]
        by_cases hP : P ((w, c), v)
        · rw [if_pos hP, if_pos hP]
          exact lookupInner_insertInner_self d0 w c _ hkey
        · rw [if_neg hP, if_neg hP]
          exact hnone
      · have hne : e.1 ≠ (w, c) := by
          intro hh
          exact hnd.1 (hh ▸ List.mem_map_of_mem _ h1)
        have horc : ¬w = e.1.1 ∨ ¬c = e.1.2 := by
          by_cases hx : w = e.1.1
          · refine Or.inr fun hy => hne ?_
            rw [hx, hy]
          · exact Or.inl hx
        have hkey1 : w ∈ dictKeys
            (if P e then insertInner d0 e.1.1 e.1.2 (V e) else d0) := by
          by_cases hP : P e
          · rw [if_pos hP, dictKeys_insertInner]
            exact hkey
          · rw [if_neg hP]
            exact hkey
        have hnone1 : lookupInner
            (if P e then insertInner d0 e.1.1 e.1.2 (V e) else d0) w c
              = none := by
          by_cases hP : P e
          · rw [if_pos hP, lookupInner_insertInner_other _ _ _ _ _ _ horc]
            exact hnone
          · rw [if_neg hP]
            exact hnone
        exact ih _ hnd.2 h1 hkey1 hnone1

theorem dictGetD_dictAdd {κ : Type} [DecidableEq κ] (d : List (κ × ℚ))
    (k w : κ) (v : ℚ) :
    dictGetD (dictAdd d k v) w 0 =
      dictGetD d w 0 + (if k = w then v else 0) := by
  induction d with
  | nil =>
      by_cases h : k = w
      · simp [dictAdd, dictUpd, dictGetD, h]
      · simp [dictAdd, dictUpd, dictGetD, h]
  | cons p rest ih =>
      by_cases hp : p.1 = k
      · simp only [dictAdd, dictGetD, if_pos hp, dictUpd]
        by_cases hw : k = w
        · rw [if_pos hw, if_pos hw, if_pos (hp.trans hw)]
        · rw [if_neg hw, if_neg hw,
            if_neg (fun hh : p.1 = w => hw (hp.symm.trans hh)), add_zero]
      · have hstep : dictAdd (p :: rest) k v = p :: dictAdd rest k v := by
          simp only [dictAdd, dictGetD, if_neg hp, dictUpd]
        rw [hstep]
        by_cases hw : p.1 = w
        · simp only [dictGetD, if_pos hw]
          rw [if_neg (fun hh : k = w => hp (hw.trans hh.symm)), add_zero]
        · simp only [dictGetD, if_neg hw]
          exact ih

theorem dictGetD_foldl_add (w : String) :
    ∀ (l : List ((String × String) × ℚ)) (d0 : List (String × ℚ)),
      dictGetD (l.foldl (fun d e => dictAdd d e.1.1 e.2) d0) w 0
        = dictGetD d0 w 0 +
          (l.map (fun e => if e.1.1 = w then e.2 else 0)).sum := by
  intro l
  induction l with
  | nil =>
      intro d0
      simp
  | cons e rest ih =>
      intro d0
      rw [List.foldl_cons, ih, dictGetD_dictAdd]
      simp only [List.map_cons, List.sum_cons]
      ring

theorem dictGetD_PwDict (wc : List ((String × String) × ℚ)) (w : String) :
    dictGetD (PwDict wc) w 0 = rowMass wc w := by
  unfold PwDict rowMass
  rw [dictGetD_foldl_add]
  simp [dictGetD]

theorem sumPw_eq (wc : List ((String × String) × ℚ)) :
    sumPw wc = tableTotal wc := by
  unfold sumPw PwDict
  rw [tableTotal_foldl (fun d e => dictAdd d e.1.1 e.2) (fun e => e.2)
    (fun t a => tableTotal_dictAdd t a.1.1 a.2) wc []]
  simp [tableTotal]

theorem PwN_eq (wc : List ((String × String) × ℚ)) (w : String) :
    PwN wc w = rowMass wc w / tableTotal wc := by
  unfold PwN
  rw [dictGetD_PwDict, sumPw_eq]

/-- C2: for an observed pair `(w,c)` of a count table with positive total
mass (the table a dict: no duplicate keys), the PPMI calculator uses the
unsmoothed word marginal — row-sum over total mass — for BOTH the word term
and the context term of the ratio (first two conjuncts), stores the pair in
the output with score `max(ln((count/total)/(Pw(w)·Pw(c))) − ln k, 0)`
exactly when that score is strictly positive (third conjunct;
`keepScore r k` is by definition `0 < scoreVal r k`), and the result is
independent of the smoothing parameter `alpha` — the smoothed context
marginal never enters the score (fourth conjunct). -/
theorem C2_ppmi_score_formula (wc : List ((String × String) × ℚ))
    (k alpha alpha2 : ℚ) (w c : String) (v : ℚ)
    (hnd : (wc.map (·.1)).Nodup) (hmem : ((w, c), v) ∈ wc)
    (hT : 0 < tableTotal wc) (hv : 0 < v)
    (hw : 0 < rowMass wc w) (hc : 0 < rowMass wc c) :
    PwN wc w = rowMass wc w / tableTotal wc ∧
    PwN wc c = rowMass wc c / tableTotal wc ∧
    lookupInner (calculate_ppmi wc k alpha) w c =
      (if keepScore ((v / tableTotal wc) / (PwN wc w * PwN wc c)) k
       then some (scoreVal ((v / tableTotal wc) / (PwN wc w * PwN wc c)) k)
       else none) ∧
    calculate_ppmi wc k alpha = calculate_ppmi wc k alpha2 := by
  refine ⟨PwN_eq wc w, PwN_eq wc c, ?_, rfl⟩
  unfold calculate_ppmi
  exact lookupInner_calc_foldl
    (fun e => keepScore ((e.2 / tableTotal wc) /
      (PwN wc e.1.1 * PwN wc e.1.2)) k)
    (fun e => scoreVal ((e.2 / tableTotal wc) /
      (PwN wc e.1.1 * PwN wc e.1.2)) k)
    w c v wc (outerInit wc) hnd hmem
    (mem_dictKeys_outerInit wc w c v hmem) (lookupInner_outerInit wc w c)

/-- C2 (witness): the formula theorem instantiated at the two-pair table
`{(a,a) ↦ 1, (b,b) ↦ 1}` with `k = 1`, `alpha = 3/4`, `alpha2 = 1`, at the
observed pair `(a,a)` with count 1. -/
theorem C2_ppmi_score_formula_witness :
    ((([(("a", "a"), (1 : ℚ)), (("b", "b"), 1)]).map (·.1)).Nodup ∧
        ((("a", "a"), (1 : ℚ)) ∈
          [(("a", "a"), (1 : ℚ)), (("b", "b"), 1)]) ∧
        0 < tableTotal [(("a", "a"), (1 : ℚ)), (("b", "b"), 1)] ∧
        (0 : ℚ) < 1 ∧
        0 < rowMass [(("a", "a"), (1 : ℚ)), (("b", "b"), 1)] "a") ∧
    lookupInner
        (calculate_ppmi [(("a", "a"), (1 : ℚ)), (("b", "b"), 1)] 1 (3 / 4))
        "a" "a" =
      (if keepScore
          ((1 / tableTotal [(("a", "a"), (1 : ℚ)), (("b", "b"), 1)]) /
            (PwN [(("a", "a"), (1 : ℚ)), (("b", "b"), 1)] "a" *
              PwN [(("a", "a"), (1 : ℚ)), (("b", "b"), 1)] "a")) 1
       then some (scoreVal
          ((1 / tableTotal [(("a", "a"), (1 : ℚ)), (("b", "b"), 1)]) /
            (PwN [(("a", "a"), (1 : ℚ)), (("b", "b"), 1)] "a" *
              PwN [(("a", "a"), (1 : ℚ)), (("b", "b"), 1)] "a")) 1)
       else none) :=
  ⟨⟨by decide, by decide, by with_unfolding_all decide,
      by decide, by with_unfolding_all decide⟩,
    (C2_ppmi_score_formula [(("a", "a"), 1), (("b", "b"), 1)] 1 (3 / 4) 1
      "a" "a" 1 (by decide) (by decide) (by with_unfolding_all decide)
      (by decide) (by with_unfolding_all decide)
      (by with_unfolding_all decide)).2.2.1⟩

/-- C6: every score present in the PPMIVectorSpace produced by
`calculate_ppmi` is strictly positive, for every input count table and
hyperparameters — entries are inserted only under the guard
`ppmi_value > 0.0` (model.py line 150). -/
theorem C6_scores_strictly_positive (wc : List ((String × String) × ℚ))
    (k alpha : ℚ) (w c : String) (s : ℝ)
    (h : lookupInner (calculate_ppmi wc k alpha) w c = some s) : 0 < s := by
  unfold calculate_ppmi at h
  revert h
  suffices hgen : ∀ (l : List ((String × String) × ℚ)) (d0 : PPMISpace),
      (∀ w' c' s', lookupInner d0 w' c' = some s' → (0 : ℝ) < s') →
      ∀ w' c' s', lookupInner (l.foldl
          (fun d e =>
            if keepScore ((e.2 / tableTotal wc) /
                (PwN wc e.1.1 * PwN wc e.1.2)) k
            then insertInner d e.1.1 e.1.2
              (scoreVal ((e.2 / tableTotal wc) /
                (PwN wc e.1.1 * PwN wc e.1.2)) k)
            else d) d0) w' c' = some s' → 0 < s' by
    intro h
    exact hgen wc (outerInit wc)
      (fun w' c' s' hh => by rw [lookupInner_outerInit] at hh; cases hh)
      w c s h
  intro l
  induction l with
  | nil =>
      intro d0 h0
      exact h0
  | cons e rest ih =>
      intro d0 h0
      rw [List.foldl_cons]
      apply ih
      intro w' c' s' h'
      have h'' : lookupInner
          (if keepScore ((e.2 / tableTotal wc) /
              (PwN wc e.1.1 * PwN wc e.1.2)) k
           then insertInner d0 e.1.1 e.1.2
             (scoreVal ((e.2 / tableTotal wc) /
               (PwN wc e.1.1 * PwN wc e.1.2)) k)
           else d0) w' c' = some s' := h'
      by_cases hP : keepScore ((e.2 / tableTotal wc) /
          (PwN wc e.1.1 * PwN wc e.1.2)) k
      · rw [if_pos hP] at h''
        rcases lookupInner_insertInner_cases _ _ _ _ _ _ _ h'' with h1 | h1
        · rw [h1]
          exact hP
        · exact h0 _ _ _ h1
      · rw [if_neg hP] at h''
        exact h0 _ _ _ h''

/-- C6 (witness): on the table `{(a,a) ↦ 1, (b,b) ↦ 1}` with `k = 1` the
output contains the entry `(a,a)` (its raw ratio is 2 > 1 = k), and the
positivity theorem applies to it. -/
theorem C6_scores_strictly_positive_witness :
    lookupInner (calculate_ppmi [(("a", "a"), (1 : ℚ)), (("b", "b"), 1)] 1
        (3 / 4)) "a" "a" = some (scoreVal 2 1) ∧
    (0 : ℝ) < scoreVal 2 1 := by
  have hEq : lookupInner
      (calculate_ppmi [(("a", "a"), (1 : ℚ)), (("b", "b"), 1)] 1 (3 / 4))
      "a" "a" = some (scoreVal 2 1) := by
    with_unfolding_all rfl
  exact ⟨hEq, C6_scores_strictly_positive _ 1 (3 / 4) "a" "a" _ hEq⟩

/-- C7 (counterexample): on a count table with total mass zero (the empty
table) and shift `k = 0 ≤ 0`, `calculate_ppmi` raises nothing and produces
an output — the empty PPMIVectorSpace — contradicting the claim that a
configuration error is raised before computation and no output is
produced. -/
theorem C7_cex : calculate_ppmi [] 0 (3 / 4) = ([] : PPMISpace) := rfl

/-- C7 (amended): `calculate_ppmi` performs no input validation at all: for
every shift `k` (including `k ≤ 0`) and every `alpha`, on the zero-total-
mass (empty) count table it completes normally and returns the empty
PPMIVectorSpace instead of raising a configuration error. -/
theorem C7_no_validation (k alpha : ℚ) :
    tableTotal ([] : List ((String × String) × ℚ)) = 0 ∧
    calculate_ppmi [] k alpha = ([] : PPMISpace) :=
  ⟨rfl, rfl⟩

theorem dictGetD_scaleV (a : ℝ) (v : List (String × ℝ)) (s : String) :
    dictGetD (scaleV a v) s 0 = a * dictGetD v s 0 := by
  induction v with
  | nil => simp [scaleV, dictGetD]
  | cons p rest ih =>
      by_cases h : p.1 = s
      · simp [scaleV, dictGetD, h]
      · simp only [scaleV] at ih ⊢
        simp [dictGetD, h, ih]

theorem dictGetD_eq_val_of_nodup (v : List (String × ℝ)) (p : String × ℝ)
    (hnd : (v.map (·.1)).Nodup) (hp : p ∈ v) : dictGetD v p.1 0 = p.2 := by
  induction v with
  | nil => cases hp
  | cons q rest ih =>
      rw [List.map_cons, List.nodup_cons] at hnd
      rcases List.mem_cons.1 hp with h | h
      · rw [h]
        simp [dictGetD]
      · have hq : ¬q.1 = p.1 := by
          intro hh
          apply hnd.1
          rw [hh]
          exact List.mem_map_of_mem _ h
        simp only [dictGetD, if_neg hq]
        exact ih hnd.2 h

theorem sqNorm_nonneg (v : List (String × ℝ)) : 0 ≤ sqNorm v := by
  unfold sqNorm
  apply List.sum_nonneg
  intro x hx
  obtain ⟨p, _, rfl⟩ := List.mem_map.1 hx
  positivity

theorem sqNorm_scaleV (a : ℝ) (v : List (String × ℝ)) :
    sqNorm (scaleV a v) = a ^ 2 * sqNorm v := by
  unfold sqNorm scaleV
  rw [List.map_map, ← List.sum_map_mul_left]
  congr 1
  apply List.map_congr_left
  intro p _
  simp only [Function.comp_apply]
  ring

/-- C9: the per-pair cosine of the similarity engine is exactly 0 for two
non-zero vectors sharing no context key, and exactly 1 when the second
vector is a positive scalar multiple of the first (the vectors being
dictionaries, their keys are distinct). -/
theorem C9_cosine_extremes (vi vj : List (String × ℝ)) (a : ℝ) :
    ((∀ s ∈ dictKeys vi, s ∉ dictKeys vj) →
      sqNorm vi ≠ 0 → sqNorm vj ≠ 0 → cosSim vi vj = 0) ∧
    (0 < a → (vi.map (·.1)).Nodup → sqNorm vi ≠ 0 →
      cosSim vi (scaleV a vi) = 1) := by
  constructor
  · intro hdis _ _
    unfold cosSim
    have hfilter :
        vi.filter (fun p => (vj.map (·.1)).contains p.1) = [] := by
      rw [List.filter_eq_nil_iff]
      intro p hp hcont
      exact hdis p.1 (List.mem_map_of_mem _ hp)
        (List.mem_of_elem_eq_true hcont)
    rw [hfilter]
    simp
  · intro ha hnd hnz
    unfold cosSim
    have hS0 : 0 ≤ sqNorm vi := sqNorm_nonneg vi
    have hfilter :
        vi.filter (fun p => ((scaleV a vi).map (·.1)).contains p.1) = vi := by
      apply List.filter_eq_self.2
      intro p hp
      apply List.elem_eq_true_of_mem
      unfold scaleV
      rw [List.map_map]
      exact List.mem_map_of_mem _ hp
    rw [hfilter]
    have hmapeq : vi.map (fun p => p.2 * dictGetD (scaleV a vi) p.1 0) =
        vi.map (fun p => a * p.2 ^ 2) := by
      apply List.map_congr_left
      intro p hp
      rw [dictGetD_scaleV, dictGetD_eq_val_of_nodup vi p hnd hp]
      ring
    rw [hmapeq, List.sum_map_mul_left, sqNorm_scaleV,
      Real.sqrt_mul (sq_nonneg a), Real.sqrt_sq ha.le]
    have hss : Real.sqrt (sqNorm vi) * (a * Real.sqrt (sqNorm vi)) =
        a * sqNorm vi := by
      calc Real.sqrt (sqNorm vi) * (a * Real.sqrt (sqNorm vi)) =
          a * (Real.sqrt (sqNorm vi) * Real.sqrt (sqNorm vi)) := by ring
        _ = a * sqNorm vi := by rw [Real.mul_self_sqrt hS0]
    rw [hss]
    show a * sqNorm vi / (a * sqNorm vi) = 1
    exact div_self (mul_ne_zero ha.ne' hnz)

/-- C9 (witness): the disjoint vectors `{x ↦ 2}` and `{y ↦ 3}` have cosine
exactly 0, and `{x ↦ 2}` against its positive multiple by 3 has cosine
exactly 1. -/
theorem C9_cosine_extremes_witness :
    ((∀ s ∈ dictKeys [("x", (2 : ℝ))], s ∉ dictKeys [("y", (3 : ℝ))]) ∧
      sqNorm [("x", (2 : ℝ))] ≠ 0 ∧ sqNorm [("y", (3 : ℝ))] ≠ 0 ∧
      (0 : ℝ) < 3 ∧ (([("x", (2 : ℝ))]).map (·.1)).Nodup) ∧
    cosSim [("x", (2 : ℝ))] [("y", (3 : ℝ))] = 0 ∧
    cosSim [("x", (2 : ℝ))] (scaleV 3 [("x", (2 : ℝ))]) = 1 := by
  have hdis : ∀ s ∈ dictKeys [("x", (2 : ℝ))],
      s ∉ dictKeys [("y", (3 : ℝ))] := by
    intro s hs
    simp only [dictKeys, List.map_cons, List.map_nil, List.mem_cons,
      List.not_mem_nil, or_false] at hs ⊢
    rw [hs]
    decide
  have hnx : sqNorm [("x", (2 : ℝ))] ≠ 0 := by norm_num [sqNorm]
  have hny : sqNorm [("y", (3 : ℝ))] ≠ 0 := by norm_num [sqNorm]
  have hnd : (([("x", (2 : ℝ))]).map (·.1)).Nodup := by simp
  exact ⟨⟨hdis, hnx, hny, by norm_num, hnd⟩,
    (C9_cosine_extremes [("x", (2 : ℝ))] [("y", (3 : ℝ))] 3).1 hdis hnx hny,
    (C9_cosine_extremes [("x", (2 : ℝ))] [("y", (3 : ℝ))] 3).2 (by norm_num)
      hnd hnx⟩

/-- C10: `calculate_sims` builds and persists the pairwise similarity
mapping but has no `return` statement, so it returns `None`; consequently
`train`, which returns the value produced by `calculate_sims`, returns
`None` rather than the similarity matrix, for every input. -/
theorem C10_sims_returns_none (ppmi : PPMISpace)
    (ctx : List String → Nat → List (String × ℚ)) (word_list : List String)
    (L : Nat) (corpus : List (List String)) (k alpha : ℚ) :
    (calculate_sims ppmi).ret = none ∧
    (calculate_sims ppmi).persisted = pairSims ppmi ∧
    train ctx word_list L corpus k alpha = none :=
  ⟨rfl, rfl, rfl⟩
